import Mathlib

/-!
Verification of the genji document database core against its specification.

The Go sources are shallowly embedded: pure functions become Lean functions,
stateful code becomes explicit state passing, fallible code returns `Except`,
and a Go runtime panic is modelled as a distinguished error value.
Definitions are translated from the repository sources; the few places where
the deciding code is not part of the repository snapshot are modelled from
the specification and marked `Modelled from the spec`.
-/

set_option maxRecDepth 8192

deriving instance DecidableEq for Except

namespace GenjiV

/-- Fragment of a `document.Path`: a field name or an array index. -/
inductive PathFragment where
  | field (name : String)
  | arrIdx (i : Nat)
deriving DecidableEq

/-- `document.Path`: a non-empty sequence of fragments.  `Path.IsEqual` is
fragment-wise equality, i.e. decidable equality of the lists. -/
abbrev DocPath := List PathFragment

/-- The scanner tokens relevant to the planner (`=`, `>`, `>=`, `<`, `<=`,
`IN`, `BETWEEN`).  `operatorIsIndexCompatible` returns true exactly on these
tokens, hence the embedding restricts to them. -/
inductive Token where
  | EQ
  | GT
  | GTE
  | LT
  | LTE
  | IN
  | BETWEEN
deriving DecidableEq

/-- `internal/expr` expressions, restricted to the shapes the planner
inspects: literals, paths, literal expression lists, binary operators and
the BETWEEN operator. -/
inductive Expr where
  | litInt (n : Int)
  | path (p : DocPath)
  | list (es : List Expr)
  | binop (tok : Token) (lhs rhs : Expr)
  | betweenOp (x low high : Expr)

mutual

/-- Decidable equality for expressions (hand-written: `Expr` nests
`List Expr`). -/
def exprDecEq : (a b : Expr) → Decidable (a = b)
  | .litInt n, .litInt m =>
      if h : n = m then .isTrue (by rw [h]) else .isFalse (by simp [h])
  | .path p, .path q =>
      if h : p = q then .isTrue (by rw [h]) else .isFalse (by simp [h])
  | .list es, .list fs =>
      match exprListDecEq es fs with
      | .isTrue h => .isTrue (by rw [h])
      | .isFalse h => .isFalse (by simp [h])
  | .binop t1 l1 r1, .binop t2 l2 r2 =>
      if ht : t1 = t2 then
        match exprDecEq l1 l2 with
        | .isTrue hl =>
            match exprDecEq r1 r2 with
            | .isTrue hr => .isTrue (by rw [ht, hl, hr])
            | .isFalse hr => .isFalse (by simp [hr])
        | .isFalse hl => .isFalse (by simp [hl])
      else .isFalse (by simp [ht])
  | .betweenOp x1 a1 b1, .betweenOp x2 a2 b2 =>
      match exprDecEq x1 x2 with
      | .isTrue hx =>
          match exprDecEq a1 a2 with
          | .isTrue ha =>
              match exprDecEq b1 b2 with
              | .isTrue hb => .isTrue (by rw [hx, ha, hb])
              | .isFalse hb => .isFalse (by simp [hb])
          | .isFalse ha => .isFalse (by simp [ha])
      | .isFalse hx => .isFalse (by simp [hx])
  | .litInt _, .path _ => .isFalse (fun h => Expr.noConfusion h)
  | .litInt _, .list _ => .isFalse (fun h => Expr.noConfusion h)
  | .litInt _, .binop _ _ _ => .isFalse (fun h => Expr.noConfusion h)
  | .litInt _, .betweenOp _ _ _ => .isFalse (fun h => Expr.noConfusion h)
  | .path _, .litInt _ => .isFalse (fun h => Expr.noConfusion h)
  | .path _, .list _ => .isFalse (fun h => Expr.noConfusion h)
  | .path _, .binop _ _ _ => .isFalse (fun h => Expr.noConfusion h)
  | .path _, .betweenOp _ _ _ => .isFalse (fun h => Expr.noConfusion h)
  | .list _, .litInt _ => .isFalse (fun h => Expr.noConfusion h)
  | .list _, .path _ => .isFalse (fun h => Expr.noConfusion h)
  | .list _, .binop _ _ _ => .isFalse (fun h => Expr.noConfusion h)
  | .list _, .betweenOp _ _ _ => .isFalse (fun h => Expr.noConfusion h)
  | .binop _ _ _, .litInt _ => .isFalse (fun h => Expr.noConfusion h)
  | .binop _ _ _, .path _ => .isFalse (fun h => Expr.noConfusion h)
  | .binop _ _ _, .list _ => .isFalse (fun h => Expr.noConfusion h)
  | .binop _ _ _, .betweenOp _ _ _ => .isFalse (fun h => Expr.noConfusion h)
  | .betweenOp _ _ _, .litInt _ => .isFalse (fun h => Expr.noConfusion h)
  | .betweenOp _ _ _, .path _ => .isFalse (fun h => Expr.noConfusion h)
  | .betweenOp _ _ _, .list _ => .isFalse (fun h => Expr.noConfusion h)
  | .betweenOp _ _ _, .binop _ _ _ => .isFalse (fun h => Expr.noConfusion h)

/-- Decidable equality for expression lists. -/
def exprListDecEq : (as bs : List Expr) → Decidable (as = bs)
  | [], [] => .isTrue rfl
  | [], _ :: _ => .isFalse (by simp)
  | _ :: _, [] => .isFalse (by simp)
  | a :: as, b :: bs =>
      match exprDecEq a b with
      | .isTrue h1 =>
          match exprListDecEq as bs with
          | .isTrue h2 => .isTrue (by rw [h1, h2])
          | .isFalse h2 => .isFalse (by simp [h2])
      | .isFalse h1 => .isFalse (by simp [h1])

end

instance : DecidableEq Expr := exprDecEq

mutual

/-- `planner.exprContainsPath`: `expr.Walk` looking for any `expr.Path`. -/
def exprContainsPath : Expr → Bool
  | .litInt _ => false
  | .path _ => true
  | .list es => exprListContainsPath es
  | .binop _ l r => exprContainsPath l || exprContainsPath r
  | .betweenOp x low high =>
      exprContainsPath x || exprContainsPath low || exprContainsPath high

/-- Auxiliary walk over a list of expressions. -/
def exprListContainsPath : List Expr → Bool
  | [] => false
  | e :: es => exprContainsPath e || exprListContainsPath es

end

/-- View of an expression as an `expr.Path`. -/
def Expr.asPath : Expr → Option DocPath
  | .path p => some p
  | _ => none

/-- Whether an expression is an `expr.LiteralExprList`. -/
def isLitList : Expr → Bool
  | .list _ => true
  | _ => false

/-- The token of an `expr.Operator`; `none` when the expression is not an
operator (then `isFilterIndexable` rejects the filter). -/
def exprToken : Expr → Option Token
  | .binop tok _ _ => some tok
  | .betweenOp _ _ _ => some .BETWEEN
  | _ => none

/-- `planner.operatorCanUseIndex`: breaks an operator into `(path, operand)`.
IN only accepts `path IN literal-list`; BETWEEN requires a path subject and
path-free bounds and packs the bounds as a two-element literal list;
other operators accept `path op expr` or `expr op path` with a path-free
expression side. -/
def operatorCanUseIndex : Expr → Option (DocPath × Expr)
  | .binop .IN l r =>
      match l.asPath, r.asPath with
      | some lp, none =>
          if exprContainsPath r then none
          else if isLitList r then some (lp, r) else none
      | _, _ => none
  | .betweenOp x low high =>
      match x.asPath with
      | some xp =>
          if exprContainsPath low || exprContainsPath high then none
          else some (xp, .list [low, high])
      | none => none
  | .binop _ l r =>
      match l.asPath, r.asPath with
      | some lp, none => if exprContainsPath r then none else some (lp, r)
      | none, some rp => if exprContainsPath l then none else some (rp, l)
      | _, _ => none
  | _ => none

/-- A filter node as recorded by the index selector: the filter expression
broken into `<path> <operator> <operand>`.  (The pointer to the stream node,
used only to remove the filter from the pipeline afterwards, is omitted.) -/
structure FilterNode where
  path : DocPath
  operator : Token
  operand : Expr
deriving DecidableEq

/-- `planner.indexSelector.isFilterIndexable`: the filter expression must be
an operator with a compatible token that can use an index. -/
def isFilterIndexable (e : Expr) : Option FilterNode :=
  match exprToken e with
  | none => none
  | some tok =>
      match operatorCanUseIndex e with
      | none => none
      | some (p, operand) => some { path := p, operator := tok, operand := operand }

/-- `planner.filterNodes.getByPath`: first filter node for the given path. -/
def getByPath (nodes : List FilterNode) (p : DocPath) : Option FilterNode :=
  nodes.find? fun fn => decide (fn.path = p)

/-- `stream.Range` as built by the planner: paths, optional min/max literal
expression lists, exclusivity and exactness flags. -/
structure SRange where
  paths : List DocPath := []
  min : List Expr := []
  max : List Expr := []
  exclusive : Bool := false
  exact : Bool := false
deriving DecidableEq

/-- `planner.indexSelector.buildRangeFromOperator`.  In the BETWEEN branch
Go type-asserts the last operand to a two-element literal list and panics
otherwise; that branch is unreachable because `operatorCanUseIndex` packs
BETWEEN bounds as a two-element list, so the embedding keeps the operand
unchanged when the assertion would fail. -/
def buildRangeFromOperator (lastOp : Token) (paths : List DocPath)
    (operands : List Expr) : SRange :=
  let el := operands
  match lastOp with
  | .EQ => { paths := paths, exact := true, min := el }
  | .IN => { paths := paths, exact := true, min := el }
  | .GT => { paths := paths, exclusive := true, min := el }
  | .GTE => { paths := paths, min := el }
  | .LT => { paths := paths, exclusive := true, max := el }
  | .LTE => { paths := paths, max := el }
  | .BETWEEN =>
      let n := el.length
      let minL := el.mapIdx fun i e =>
        if i = n - 1 then (match e with | .list es => es.getD 0 e | _ => e) else e
      let maxL := el.mapIdx fun i e =>
        if i = n - 1 then (match e with | .list es => es.getD 1 e | _ => e) else e
      { paths := paths, min := minL, max := maxL }

/-- Modelled from the spec: `stream.Ranges.Cost` is not under the snapshot.
Spec 4.7: "rangesCost is the sum over ranges of: 50 when unbounded, else 0
for exact, else the length of any shared prefix of min/max". -/
def sharedPrefLen : List Expr → List Expr → Nat
  | a :: as, b :: bs => if a = b then 1 + sharedPrefLen as bs else 0
  | _, _ => 0

/-- Cost of a single range (see `sharedPrefLen`). -/
def SRange.cost (r : SRange) : Int :=
  if r.min = [] ∧ r.max = [] then 50
  else if r.exact then 0
  else sharedPrefLen r.min r.max

/-- Cost of a list of ranges: the sum of the individual costs. -/
def rangesCost (rs : List SRange) : Int := (rs.map SRange.cost).sum

/-- The stream operators needed by the planner and statement claims. -/
inductive Operator where
  | tableScan (tableName : String) (ranges : List SRange)
  | indexScan (indexName : String) (ranges : List SRange)
  | docsFilter (e : Expr)
  | pathsSet (p : DocPath) (e : Expr)
  | pathsUnset (fieldName : String)
  | tableValidate (tableName : String)
  | tableDelete (tableName : String)
  | tableInsert (tableName : String)
  | tableReplace (tableName : String)
  | indexDelete (indexName : String)
  | indexInsert (indexName : String)
deriving DecidableEq

/-- `planner.indexSelector.walkExpr`.  The Go function evaluates `l[0]`
BEFORE its `len(l) == 0` guard, so an empty outer list panics with an
index-out-of-range; the panic is the `.error` case and the guard is dead
code.  On a non-empty list it emits every combination row, in order. -/
def walkExpr : List (List Expr) → Except Unit (List (List Expr))
  | [] => .error ()
  | [curLine] => .ok (curLine.map fun e => [e])
  | curLine :: rest => do
      let subs ← walkExpr rest
      .ok (curLine.flatMap fun e => subs.map fun row => e :: row)

/-- One row of the two-dimensional expression list built by
`buildRangesFromFilterNodes`: a singleton for non-IN filters, the asserted
`expr.LiteralExprList` for IN filters (a failed assertion panics). -/
def rowOfFilter (f : FilterNode) : Except Unit (List Expr) :=
  if f.operator ≠ Token.IN then .ok [f.operand]
  else
    match f.operand with
    | .list es => .ok es
    | _ => .error ()

/-- `planner.indexSelector.buildRangesFromFilterNodes`: build one row per
filter, then walk all combinations, producing one exact range per row. -/
def buildRangesFromFilterNodes (paths : List DocPath) (filters : List FilterNode) :
    Except Unit (List SRange) := do
  let l ← filters.mapM rowOfFilter
  let rows ← walkExpr l
  .ok (rows.map fun row => buildRangeFromOperator .EQ (paths.take row.length) row)

/-- `planner.indexSelector.buildRangeFromFilterNodes` (single range): Go
indexes `filters[len(filters)-1]`; the callers guard `filters` non-empty, so
the empty case (a Go panic) is given an arbitrary token. -/
def buildRangeFromFilterNodes (filters : List FilterNode) : SRange :=
  let paths := filters.map (·.path)
  let el := filters.map (·.operand)
  match filters.getLast? with
  | some filter => buildRangeFromOperator filter.operator paths el
  | none => buildRangeFromOperator .EQ paths el

/-- The filter-association loop of `associateIndexWithNodes`: walk the
indexed paths left to right, stop at the first path without a filter; track
`hasIn`; append the node unless an earlier IN forbids a non-EQ/IN operator;
stop after the first operator that is neither IN nor `=`.
Go tracks `hasIn`, tests `!hasIn || (op == EQ || op == IN)` before appending,
and breaks after any operator that is neither `=` nor IN.  For an EQ/IN
operator the append condition is always true and the loop continues; on a
break the operator is not IN, so `hasIn` is unchanged and the node is
appended exactly when no IN was seen before.  That case split is spelled
out below. -/
def associateLoop (nodes : List FilterNode) :
    List DocPath → Bool → List FilterNode → List FilterNode × Bool
  | [], hasIn, found => (found, hasIn)
  | p :: ps, hasIn, found =>
      match getByPath nodes p with
      | none => (found, hasIn)
      | some n =>
          if n.operator = .EQ ∨ n.operator = .IN then
            associateLoop nodes ps (hasIn || decide (n.operator = .IN)) (found ++ [n])
          else
            if hasIn then (found, hasIn) else (found ++ [n], hasIn)

/-- A selection candidate: the associated filter nodes, the operators that
replace the scan, the cost of the ranges and the index flags. -/
structure Candidate where
  nodes : List FilterNode
  replaceRootBy : List Operator
  rangesCost : Int
  isIndex : Bool
  isUnique : Bool
deriving DecidableEq

/-- `planner.candidate.Cost`: ranges cost, plus 20 for a secondary index,
minus 10 for a unique one, minus the number of associated filter nodes. -/
def Candidate.Cost (c : Candidate) : Int :=
  let cost := c.rangesCost
  let cost := if c.isIndex then cost + 20 else cost
  let cost := if c.isUnique then cost - 10 else cost
  cost - c.nodes.length

/-- `planner.indexSelector.associateIndexWithNodes`. -/
def associateIndexWithNodes (treeName : String) (isIndex isUnique : Bool)
    (paths : List DocPath) (nodes : List FilterNode) :
    Except Unit (Option Candidate) := do
  let fh := associateLoop nodes paths false []
  let found := fh.1
  let hasIn := fh.2
  if found = [] then return none
  let ranges ←
    if !hasIn then pure [buildRangeFromFilterNodes found]
    else buildRangesFromFilterNodes paths found
  let c : Candidate := {
    nodes := found
    rangesCost := rangesCost ranges
    isIndex := isIndex
    isUnique := isUnique
    replaceRootBy :=
      if !isIndex then [.tableScan treeName ranges] else [.indexScan treeName ranges] }
  return some c

/-- The candidate-comparison loop of `indexSelector.selectIndex` (lines
115-157): start from the primary-key candidate, then for every index
candidate replace the selection when it associates strictly more filter
nodes, or equally many at a strictly lower cost. -/
def selectBest : Option Candidate → List (Option Candidate) → Option Candidate
  | sel, [] => sel
  | sel, none :: rest => selectBest sel rest
  | none, some c :: rest => selectBest (some c) rest
  | some s, some c :: rest =>
      if s.nodes.length < c.nodes.length ∨
          (s.nodes.length = c.nodes.length ∧ c.Cost < s.Cost) then
        selectBest (some c) rest
      else selectBest (some s) rest

/-- Primary-key paths of a table.  Modelled from the spec: `TableInfo` and
`GetPrimaryKey` are not under the snapshot; per 3 the primary key is the
declared list of paths, when one exists. -/
structure TableInfo where
  tableName : String := ""
  storeNamespace : Nat := 0
  readOnly : Bool := false
  docidSequenceName : String := ""
  pk : Option (List DocPath) := none
deriving DecidableEq

/-- Ownership marker for implicitly created indexes and sequences. -/
structure Owner where
  tableName : String := ""
  paths : List DocPath := []
deriving DecidableEq

/-- Index metadata (`database.IndexInfo`), as used by the planner and the
catalog. -/
structure IndexInfo where
  indexName : String := ""
  tableName : String := ""
  storeNamespace : Nat := 0
  unique : Bool := false
  paths : List DocPath := []
  owner : Owner := {}
deriving DecidableEq

/-- Sequence metadata (`database.SequenceInfo`), restricted to the fields
the catalog claims observe. -/
structure SequenceInfo where
  name : String := ""
  owner : Owner := {}
deriving DecidableEq

/-- The candidates considered by `selectIndex`: the primary key of the
table (when declared), then one candidate per declared index, in order. -/
def candidatesOf (ti : TableInfo) (idxs : List IndexInfo) (nodes : List FilterNode) :
    Except Unit (Option Candidate × List (Option Candidate)) := do
  let pkCand ←
    match ti.pk with
    | some pkPaths => associateIndexWithNodes ti.tableName false false pkPaths nodes
    | none => pure none
  let idxCands ← idxs.mapM fun ii =>
    associateIndexWithNodes ii.indexName true ii.unique ii.paths nodes
  return (pkCand, idxCands)

/-! ## UPDATE statement preparation (`statement.UpdateStmt.Prepare`) -/

/-- `statement.UpdateStmt`, restricted to the fields `Prepare` reads. -/
structure UpdateStmt where
  tableName : String
  setPairs : Option (List (DocPath × Expr)) := none
  unsetFields : Option (List String) := none
  whereExpr : Option Expr := none

/-- The SET loop of `UpdateStmt.Prepare`: append one `PathsSet` operator per
pair and record whether any target path equals a primary-key path (the Go
loop skips the scan once `pkModified` is set, which does not change the
outcome). -/
def updateSetLoop (pk : Option (List DocPath)) :
    List (DocPath × Expr) → Bool → List Operator → Bool × List Operator
  | [], pkModified, ops => (pkModified, ops)
  | pair :: rest, pkModified, ops =>
      let pkModified' :=
        if pkModified then true
        else
          match pk with
          | some pkPaths => pkPaths.any fun p => decide (p = pair.1)
          | none => false
      updateSetLoop pk rest pkModified' (ops ++ [.pathsSet pair.1 pair.2])

/-- The UNSET loop of `UpdateStmt.Prepare`: refuse to unset any primary-key
path, else append one `PathsUnset` per field.  `document.NewPath name` of a
plain field name is the single-fragment path. -/
def updateUnsetLoop (pk : Option (List DocPath)) :
    List String → List Operator → Except Unit (List Operator)
  | [], ops => .ok ops
  | name :: rest, ops =>
      let bad :=
        match pk with
        | some pkPaths => pkPaths.any fun p => decide (p = [PathFragment.field name])
        | none => false
      if bad then .error ()
      else updateUnsetLoop pk rest (ops ++ [.pathsUnset name])

/-- `statement.UpdateStmt.Prepare`: the pipeline skeleton of an UPDATE.
`pk` is `GetPrimaryKey()` of the table (its paths), `indexNames` is
`ListIndexes(table)`. -/
def updatePrepare (stmt : UpdateStmt) (pk : Option (List DocPath))
    (indexNames : List String) : Except Unit (List Operator) := do
  let s : List Operator := [.tableScan stmt.tableName []]
  let s :=
    match stmt.whereExpr with
    | some w => s ++ [.docsFilter w]
    | none => s
  let ps ←
    match stmt.setPairs with
    | some pairs => pure (updateSetLoop pk pairs false s)
    | none =>
        match stmt.unsetFields with
        | some fields => do
            let s ← updateUnsetLoop pk fields s
            pure (false, s)
        | none => pure (false, s)
  let pkModified := ps.1
  let s := ps.2 ++ [.tableValidate stmt.tableName]
  let s := s ++ indexNames.map Operator.indexDelete
  let s :=
    if pkModified then s ++ [.tableDelete stmt.tableName, .tableInsert stmt.tableName]
    else s ++ [.tableReplace stmt.tableName]
  .ok (s ++ indexNames.map Operator.indexInsert)

/-! ## Value codec and composite keys (`types/encoding`, `tree.NewKey`) -/

/-- `types.ValueType` kinds. -/
inductive ValueType where
  | null
  | boolean
  | integer
  | double
  | text
  | blob
  | array
  | document
deriving DecidableEq

/-- A genji value.  `nilOf t` models a Go `types.Value` whose dynamic
payload `V()` is nil while its type is `t`.  Doubles carry their
order-preserving 8-byte transform as a natural number (NaN, rejected by the
codec, has no representative); texts and blobs carry their raw bytes. -/
inductive Value where
  | null
  | bool (b : Bool)
  | int (n : Int)
  | double (bits : Nat)
  | text (bytes : List Nat)
  | blob (bytes : List Nat)
  | array (vs : List Value)
  | doc (fields : List (List Nat × Value))
  | nilOf (t : ValueType)

/-- `types.Value.Type()`. -/
def Value.typeOf : Value → ValueType
  | .null => .null
  | .bool _ => .boolean
  | .int _ => .integer
  | .double _ => .double
  | .text _ => .text
  | .blob _ => .blob
  | .array _ => .array
  | .doc _ => .document
  | .nilOf t => t

/-- Whether the Go payload `V()` is nil: true for the nil payloads and for
Null itself (whose payload is also nil; `NewKey`'s guard excludes it by
type). -/
def Value.isNilV : Value → Bool
  | .null => true
  | .nilOf _ => true
  | _ => false

/-- Modelled from the spec: the codec (`types/encoding`) is not under the
snapshot.  One tag byte per kind, ordered Null < False < True and one tag
per remaining kind, plus array/document delimiters (spec 4.2); the concrete
byte values are illustrative, the claims only use their presence. -/
def tagNull : Nat := 1

/-- Tag byte of `false`. -/
def tagFalse : Nat := 2

/-- Tag byte of `true`. -/
def tagTrue : Nat := 3

/-- Tag byte of integers. -/
def tagInt : Nat := 4

/-- Tag byte of doubles. -/
def tagDouble : Nat := 5

/-- Tag byte of texts. -/
def tagText : Nat := 6

/-- Tag byte of blobs. -/
def tagBlob : Nat := 7

/-- `ArrayStart` delimiter (the array type tag). -/
def tagArrayStart : Nat := 8

/-- `ArrayEnd` delimiter. -/
def tagArrayEnd : Nat := 9

/-- `DocStart` delimiter (the document type tag). -/
def tagDocStart : Nat := 10

/-- `DocEnd` delimiter. -/
def tagDocEnd : Nat := 11

/-- Big-endian bytes of `n`, exactly `k` of them (modulo `256 ^ k`). -/
def beBytes : Nat → Nat → List Nat
  | 0, _ => []
  | k + 1, n => beBytes k (n / 256) ++ [n % 256]

/-- Zero-byte escaping of text/blob payloads: `0x00` becomes `0x00 0xFF` so
no encoded payload contains the raw zero terminator. -/
def escapeBytes (bs : List Nat) : List Nat :=
  bs.flatMap fun b => if b = 0 then [0, 255] else [b]

mutual

/-- Modelled from the spec (4.2): `encoding.EncodeValue`.  Sign-flipped
big-endian integers, transformed doubles, zero-terminated escaped
texts/blobs, delimited arrays and documents.  Encoding a value whose Go
payload is nil panics on the type assertion; the panic is the `.error`
case. -/
def encodeValue : Value → Except Unit (List Nat)
  | .null => .ok [tagNull]
  | .bool false => .ok [tagFalse]
  | .bool true => .ok [tagTrue]
  | .int n => .ok (tagInt :: beBytes 8 ((n + 2 ^ 63).emod (2 ^ 64)).toNat)
  | .double bits => .ok (tagDouble :: beBytes 8 bits)
  | .text bs => .ok (tagText :: (escapeBytes bs ++ [0]))
  | .blob bs => .ok (tagBlob :: (escapeBytes bs ++ [0]))
  | .array vs => do
      let inner ← encodeList vs
      .ok (tagArrayStart :: (inner ++ [tagArrayEnd]))
  | .doc fs => do
      let inner ← encodeFields fs
      .ok (tagDocStart :: (inner ++ [tagDocEnd]))
  | .nilOf _ => .error ()

/-- Concatenated encodings of array elements. -/
def encodeList : List Value → Except Unit (List Nat)
  | [] => .ok []
  | v :: vs => do
      let h ← encodeValue v
      let t ← encodeList vs
      .ok (h ++ t)

/-- Concatenated `(field-name as text, value)` encodings of document
fields. -/
def encodeFields : List (List Nat × Value) → Except Unit (List Nat)
  | [] => .ok []
  | (name, v) :: fs => do
      let hv ← encodeValue v
      let t ← encodeFields fs
      .ok ((tagText :: (escapeBytes name ++ [0])) ++ hv ++ t)

end

/-- Outcome of `tree.NewKey`: a key, the "cannot encode nil value" error,
or a Go runtime panic raised inside `EncodeValue`. -/
inductive KeyResult where
  | key (bytes : List Nat)
  | invalidValue
  | panic
deriving DecidableEq

/-- `tree.NewKey` (src/internal/tree/key.go, lines 15-35): empty input
yields a nil key; a FIRST value that is nil and not of the Null type yields
the invalid-value error; otherwise the values are encoded as an array and
the surrounding array tags are stripped (`key[1 : len(key)-1]`). -/
def NewKey (values : List Value) : KeyResult :=
  match values with
  | [] => .key []
  | v :: vs =>
      if v.typeOf ≠ ValueType.null ∧ v.isNilV then .invalidValue
      else
        match encodeValue (.array (v :: vs)) with
        | .error _ => .panic
        | .ok bs => .key (bs.drop 1).dropLast

/-! ## Catalog cache, rollback hooks and catalog operations
(`internal/database/catalog.go`) -/

/-- Catalog relation kinds. -/
inductive RelType where
  | table
  | index
  | sequence
deriving DecidableEq

/-- A catalog relation record. -/
inductive Relation where
  | table (ti : TableInfo)
  | index (ii : IndexInfo)
  | seq (si : SequenceInfo)
deriving DecidableEq

/-- `Relation.Name()`. -/
def Relation.name : Relation → String
  | .table ti => ti.tableName
  | .index ii => ii.indexName
  | .seq si => si.name

/-- `Relation.Type()`. -/
def Relation.rtype : Relation → RelType
  | .table _ => .table
  | .index _ => .index
  | .seq _ => .sequence

/-- `Relation.SetName(name)`. -/
def Relation.setName : Relation → String → Relation
  | .table ti, n => .table { ti with tableName := n }
  | .index ii, n => .index { ii with indexName := n }
  | .seq si, n => .seq { si with name := n }

/-- Modelled from the spec: `GenerateBaseName` is not under the snapshot;
4.3 only requires a base string per object kind. -/
def Relation.generateBaseName : Relation → String
  | .table ti => ti.tableName
  | .index ii => ii.tableName ++ "_idx"
  | .seq si => si.owner.tableName ++ "_seq"

/-- Lookup in an association list (a Go map; maps are extensional, so only
`alGet` matters to the claims). -/
def alGet {κ α : Type} [DecidableEq κ] : List (κ × α) → κ → Option α
  | [], _ => none
  | (k', v) :: rest, k => if k' = k then some v else alGet rest k

/-- Go `m[k] = v`. -/
def alPut {κ α : Type} [DecidableEq κ] (m : List (κ × α)) (k : κ) (v : α) :
    List (κ × α) :=
  match m with
  | [] => [(k, v)]
  | (k', v') :: rest => if k' = k then (k, v) :: rest else (k', v') :: alPut rest k v

/-- Go `delete(m, k)`. -/
def alDel {κ α : Type} [DecidableEq κ] (m : List (κ × α)) (k : κ) : List (κ × α) :=
  m.filter fun p => decide (p.1 ≠ k)

/-- `catalogCache`: the three name-keyed maps. -/
structure Cache where
  tables : List (String × Relation) := []
  indexes : List (String × Relation) := []
  sequences : List (String × Relation) := []
deriving DecidableEq

/-- `catalogCache.getMapByType`. -/
def Cache.mapOf (c : Cache) : RelType → List (String × Relation)
  | .table => c.tables
  | .index => c.indexes
  | .sequence => c.sequences

/-- Write back the map of one relation type. -/
def Cache.setMap (c : Cache) : RelType → List (String × Relation) → Cache
  | .table, m => { c with tables := m }
  | .index, m => { c with indexes := m }
  | .sequence, m => { c with sequences := m }

/-- `catalogCache.Get`. -/
def Cache.get (c : Cache) (tp : RelType) (k : String) : Option Relation :=
  alGet (c.mapOf tp) k

/-- `catalogCache.objectExists`: name uniqueness is global across tables,
sequences and indexes. -/
def Cache.objectExists (c : Cache) (name : String) : Bool :=
  (alGet c.tables name).isSome || (alGet c.sequences name).isSome ||
    (alGet c.indexes name).isSome

/-- `catalogCache.generateUnusedName`: try `base`, `base1`, `base2`, ...
and return the first unused name.  The Go loop always terminates because at
most `size` names are in use; the embedding bounds the search by `size + 1`
candidates and reports the impossible exhaustion as `none`. -/
def genUnusedNameGo (c : Cache) (base : String) : Option String :=
  go (c.tables.length + c.indexes.length + c.sequences.length + 1) 0
where
  go : Nat → Nat → Option String
    | 0, _ => none
    | fuel + 1, i =>
        let name := if i = 0 then base else base ++ Nat.repr i
        if c.objectExists name then go fuel (i + 1) else some name

/-- A rollback hook, as registered by the cache mutations: `del` compensates
an `Add` (`delete(m, name)`), `put` compensates a `Replace` or a `Delete`
(`m[name] = old`). -/
inductive Hook where
  | del (tp : RelType) (name : String)
  | put (tp : RelType) (name : String) (o : Relation)
deriving DecidableEq

/-- Execute one rollback hook on the cache. -/
def applyHook (c : Cache) : Hook → Cache
  | .del tp name => c.setMap tp (alDel (c.mapOf tp) name)
  | .put tp name o => c.setMap tp (alPut (c.mapOf tp) name o)

/-- Catalog errors. -/
inductive CatErr where
  | alreadyExists
  | notFound
  | readOnly
  | docNotFound
  | ownedIndex
  | fuelExhausted
deriving DecidableEq

/-- `catalogCache.Add`: reject duplicate non-empty names, generate a name
when none is given, store the relation in the map of its type and register
exactly one rollback hook deleting it (`SetName` preserves the type, so the
original type is used for the generated-name branch as well). -/
def cacheAdd (c : Cache) (o : Relation) : Except CatErr (Cache × List Hook) :=
  if o.name ≠ "" then
    if c.objectExists o.name then .error .alreadyExists
    else .ok (c.setMap o.rtype (alPut (c.mapOf o.rtype) o.name o), [.del o.rtype o.name])
  else
    match genUnusedNameGo c o.generateBaseName with
    | none => .error .fuelExhausted
    | some name =>
        .ok (c.setMap o.rtype (alPut (c.mapOf o.rtype) name (o.setName name)),
          [.del o.rtype name])

/-- `catalogCache.Replace`: replace an existing entry, registering one hook
that restores the previous value. -/
def cacheReplace (c : Cache) (o : Relation) : Except CatErr (Cache × List Hook) :=
  match alGet (c.mapOf o.rtype) o.name with
  | none => .error .notFound
  | some old =>
      .ok (c.setMap o.rtype (alPut (c.mapOf o.rtype) o.name o), [.put o.rtype o.name old])

/-- `catalogCache.Delete`: remove an existing entry, registering one hook
that reinserts it; the removed relation is returned. -/
def cacheDelete (c : Cache) (tp : RelType) (name : String) :
    Except CatErr ((Cache × List Hook) × Relation) :=
  match alGet (c.mapOf tp) name with
  | none => .error .notFound
  | some o => .ok ((c.setMap tp (alDel (c.mapOf tp) name), [.put tp name o]), o)

/-- A cache mutation, for reasoning about a transaction's mutation list. -/
inductive CacheOp where
  | add (o : Relation)
  | replace (o : Relation)
  | delete (tp : RelType) (name : String)

/-- Run one cache mutation, returning the new cache and the hooks it
registered. -/
def cacheOpRun (c : Cache) : CacheOp → Except CatErr (Cache × List Hook)
  | .add o => cacheAdd c o
  | .replace o => cacheReplace c o
  | .delete tp name => (cacheDelete c tp name).map (·.1)

/-- Run a list of cache mutations, accumulating the rollback hooks in
chronological order (a failed mutation changes nothing and registers no
hook). -/
def runOps (c : Cache) : List CacheOp → Cache × List Hook
  | [] => (c, [])
  | op :: ops =>
      match cacheOpRun c op with
      | .ok (c', hs) =>
          let r := runOps c' ops
          (r.1, hs ++ r.2)
      | .error _ => runOps c ops

/-- `Transaction.Rollback` over the hook list: run the accumulated hooks in
reverse (LIFO) order. -/
def rollbackHooks (c : Cache) (hooks : List Hook) : Cache :=
  hooks.foldr (fun h acc => applyHook acc h) c

/-- The catalog-relevant database state: the in-memory cache, the persisted
catalog rows of namespace 1 (keyed by name, the row being the relation
document of `relationToDocument`), the contents of the other namespaces,
and the transaction's rollback hooks. -/
structure DB where
  cache : Cache := {}
  rows : List (String × Relation) := []
  stores : List (Nat × List (List Nat × List Nat)) := []
  hooks : List Hook := []
deriving DecidableEq

/-- `catalogCache.Add` lifted to the database state. -/
def dbCacheAdd (db : DB) (o : Relation) : Except CatErr DB :=
  match cacheAdd db.cache o with
  | .error e => .error e
  | .ok (c, hs) => .ok { db with cache := c, hooks := db.hooks ++ hs }

/-- `catalogCache.Replace` lifted to the database state. -/
def dbCacheReplace (db : DB) (o : Relation) : Except CatErr DB :=
  match cacheReplace db.cache o with
  | .error e => .error e
  | .ok (c, hs) => .ok { db with cache := c, hooks := db.hooks ++ hs }

/-- `catalogCache.Delete` lifted to the database state. -/
def dbCacheDelete (db : DB) (tp : RelType) (name : String) :
    Except CatErr (DB × Relation) :=
  match cacheDelete db.cache tp name with
  | .error e => .error e
  | .ok ((c, hs), o) => .ok ({ db with cache := c, hooks := db.hooks ++ hs }, o)

/-- `CatalogStore.Insert`: insert the relation's document keyed by its
name; a primary-key conflict is reported as `AlreadyExists`.  The
underlying `Table.Insert` is modelled from the spec (4.4). -/
def catalogInsert (db : DB) (r : Relation) : Except CatErr DB :=
  match alGet db.rows r.name with
  | some _ => .error .alreadyExists
  | none => .ok { db with rows := alPut db.rows r.name r }

/-- `CatalogStore.Replace`: store the relation's document under `name`.
The underlying `Table.Replace` is modelled from the spec (4.4): validate,
then Put under the same key. -/
def catalogReplace (db : DB) (name : String) (r : Relation) : Except CatErr DB :=
  .ok { db with rows := alPut db.rows name r }

/-- `CatalogStore.Delete`: remove the row under `name`;
`ErrDocumentNotFound` when absent (`Table.Delete`, modelled from the spec
4.4). -/
def catalogDelete (db : DB) (name : String) : Except CatErr DB :=
  match alGet db.rows name with
  | none => .error .docNotFound
  | some _ => .ok { db with rows := alDel db.rows name }

/-- `Namespace.Truncate`: delete every key of the namespace. -/
def truncateNs (db : DB) (ns : Nat) : DB :=
  { db with stores := alPut db.stores ns [] }

/-- `catalogCache.GetTableIndexes`: all index infos whose table is `name`
(Go iterates an unordered map; the embedding uses the cache list order,
one admissible iteration order). -/
def getTableIndexes (c : Cache) (tableName : String) : List IndexInfo :=
  c.indexes.filterMap fun p =>
    match p.2 with
    | .index ii => if ii.tableName = tableName then some ii else none
    | _ => none

/-- `Catalog.GetTableInfo`: cache lookup plus the `*TableInfo` assertion
(the tables map only ever stores tables, so the mismatch arm is
unreachable). -/
def getTableInfo (db : DB) (tableName : String) : Except CatErr TableInfo :=
  match alGet db.cache.tables tableName with
  | some (.table ti) => .ok ti
  | some _ => .error .notFound
  | none => .error .notFound

/-- `Catalog.GetIndexInfo`. -/
def getIndexInfo (db : DB) (name : String) : Except CatErr IndexInfo :=
  match alGet db.cache.indexes name with
  | some (.index ii) => .ok ii
  | some _ => .error .notFound
  | none => .error .notFound

/-- Cache lookup of a sequence (`Catalog.GetSequence`, restricted to its
info). -/
def getSequenceInfo (db : DB) (name : String) : Except CatErr SequenceInfo :=
  match alGet db.cache.sequences name with
  | some (.seq si) => .ok si
  | some _ => .error .notFound
  | none => .error .notFound

/-- Lexicographic string comparison by code points (Go compares strings
byte-wise; for the ASCII names at play the two orders agree). -/
def strLtB (a b : String) : Bool :=
  decide (a.data.map Char.toNat < b.data.map Char.toNat)

/-- Insert into an ascending list of strings. -/
def insertSorted (s : String) : List String → List String
  | [] => [s]
  | x :: xs => if strLtB x s then x :: insertSorted s xs else s :: x :: xs

/-- Ascending insertion sort (`sort.Strings`; the keys are distinct, so any
sort gives this unique ascending order). -/
def sortStrings : List String → List String
  | [] => []
  | x :: xs => insertSorted x (sortStrings xs)

/-- `Catalog.ListSequences`: sorted sequence names. -/
def listSequences (c : Cache) : List String :=
  sortStrings (c.sequences.map (·.1))

/-- `Catalog.dropIndex` (the lower-case helper): truncate the index's
namespace, then delete its catalog row. -/
def dropIndexHelper (db : DB) (info : IndexInfo) : Except CatErr DB :=
  catalogDelete (truncateNs db info.storeNamespace) info.indexName

/-- `Catalog.DropTable` as written in the source: refuse read-only tables;
for every dependent index remove its cache entry, truncate its namespace
and delete its catalog row; then remove the table's cache entry, delete its
catalog row and truncate its namespace.  Note that the source never touches
the table's surrogate docid sequence. -/
def DropTable (db : DB) (tableName : String) : Except CatErr DB := do
  let ti ← getTableInfo db tableName
  if ti.readOnly then throw .readOnly
  let db ← (getTableIndexes db.cache tableName).foldlM (fun db idx => do
      let r ← dbCacheDelete db .index idx.indexName
      dropIndexHelper r.1 idx) db
  let r ← dbCacheDelete db .table tableName
  let db ← catalogDelete r.1 tableName
  .ok (truncateNs db ti.storeNamespace)

/-- `Catalog.DropIndex`: refuse when the index's owner paths are non-empty
(constraint-derived), else remove the cache entry, truncate the namespace
and delete the catalog row. -/
def DropIndex (db : DB) (name : String) : Except CatErr DB := do
  let info ← getIndexInfo db name
  if info.owner.paths ≠ [] then throw .ownedIndex
  let r ← dbCacheDelete db .index name
  dropIndexHelper r.1 info

/-- `Catalog.RenameTable` as written in the source.  The table's catalog row
and cache entry are rewritten with the new name; for each dependent index
the CACHE receives the renamed clone but the source passes `idx` — still
carrying the old table name — to `CatalogTable.Replace`; owned sequences
are rewritten with the renamed clone in both places. -/
def RenameTable (db : DB) (oldName newName : String) : Except CatErr DB := do
  let db ←
    match catalogDelete db oldName with
    | .error .docNotFound => .error .notFound
    | r => r
  let r ← dbCacheDelete db .table oldName
  let ti ←
    match r.2 with
    | .table ti => pure ti
    | _ => throw .notFound
  let clone := { ti with tableName := newName }
  let db ← catalogInsert r.1 (.table clone)
  let db ← dbCacheAdd db (.table clone)
  let db ← (getTableIndexes db.cache oldName).foldlM (fun db idx => do
      let r ← dbCacheDelete db .index idx.indexName
      let info ←
        match r.2 with
        | .index ii => pure ii
        | _ => throw .notFound
      let idxClone := { info with tableName := clone.tableName }
      let db ← dbCacheAdd r.1 (.index idxClone)
      catalogReplace db idx.indexName (.index idx)) db
  let db ← (listSequences db.cache).foldlM (fun db seqName => do
      let si ← getSequenceInfo db seqName
      if si.owner.tableName ≠ oldName then pure db
      else do
        let r ← dbCacheDelete db .sequence seqName
        let sClone := { si with owner := { si.owner with tableName := newName } }
        let db ← dbCacheAdd r.1 (.seq sClone)
        catalogReplace db seqName (.seq sClone)) db
  pure db

/-! ## Table scan iteration (`stream.TableScanOperator.Iterate`) -/

/-- Result of a stream callback: nil, `ErrStreamClosed`, or another
error. -/
inductive StreamRes where
  | ok
  | closed
  | err (code : Nat)
deriving DecidableEq

/-- Modelled from the spec (4.4): `Table.IterateOnRange` calls the callback
once per matching row, in order, and short-circuits on the first non-nil
callback result, returning it.  The rows the callback was invoked on are
returned alongside. -/
def iterateOnRange (rows : List Nat) (fn : Nat → StreamRes) : StreamRes × List Nat :=
  match rows with
  | [] => (.ok, [])
  | r :: rest =>
      match fn r with
      | .ok =>
          let t := iterateOnRange rest fn
          (t.1, r :: t.2)
      | res => (res, [r])

/-- The range loop of `stream.TableScanOperator.Iterate` (src lines 84-99):
run each range in turn; an `ErrStreamClosed` result from a range is
replaced by nil and the loop continues with the next range; any other error
aborts.  A scan without ranges iterates the whole table as one nil range,
i.e. `rangeRows` is a one-element list in that case. -/
def tableScanIterate (rangeRows : List (List Nat)) (fn : Nat → StreamRes) :
    StreamRes × List Nat :=
  match rangeRows with
  | [] => (.ok, [])
  | rows :: rest =>
      let t := iterateOnRange rows fn
      match t.1 with
      | .err e => (.err e, t.2)
      | _ =>
          let u := tableScanIterate rest fn
          (u.1, t.2 ++ u.2)

/-! ## Theorems -/

theorem alGet_put {κ α : Type} [DecidableEq κ] (m : List (κ × α)) (k k' : κ) (v : α) :
    alGet (alPut m k v) k' = if k' = k then some v else alGet m k' := by
  induction m with
  | nil =>
    simp only [alPut, alGet]
    by_cases h : k' = k
    · subst h; simp
    · rw [if_neg (fun hh : k = k' => h hh.symm), if_neg h]
  | cons hd tl ih =>
    obtain ⟨k₀, v₀⟩ := hd
    simp only [alPut]
    by_cases h0 : k₀ = k
    · subst h0
      rw [if_pos rfl]
      by_cases h : k' = k₀
      · subst h; simp [alGet]
      · have hsym : ¬k₀ = k' := fun hh => h hh.symm
        simp [alGet, h, hsym]
    · rw [if_neg h0]
      by_cases h : k₀ = k'
      · subst h
        simp [alGet, fun hh : k₀ = k => h0 hh]
      · simp [alGet, h, ih]

theorem alGet_del {κ α : Type} [DecidableEq κ] (m : List (κ × α)) (k k' : κ) :
    alGet (alDel m k) k' = if k' = k then none else alGet m k' := by
  induction m with
  | nil => by_cases h : k' = k <;> simp [alDel, alGet, h]
  | cons hd tl ih =>
    obtain ⟨k₀, v₀⟩ := hd
    simp only [alDel, List.filter_cons]
    by_cases h0 : k₀ = k
    · subst h0
      rw [if_neg (by simp)]
      rw [show List.filter (fun p => decide (p.1 ≠ k₀)) tl = alDel tl k₀ from rfl, ih]
      by_cases h : k' = k₀
      · subst h; simp
      · have hsym : ¬k₀ = k' := fun hh => h hh.symm
        simp [alGet, h, hsym]
    · rw [if_pos (by simpa using h0)]
      rw [show List.filter (fun p => decide (p.1 ≠ k)) tl = alDel tl k from rfl]
      by_cases h : k₀ = k'
      · subst h
        simp [alGet, ih, fun hh : k₀ = k => h0 hh]
      · simp [alGet, h, ih]

theorem cacheGet_setMap (c : Cache) (tp : RelType) (m : List (String × Relation))
    (tp' : RelType) (k' : String) :
    (c.setMap tp m).get tp' k' = if tp' = tp then alGet m k' else c.get tp' k' := by
  cases tp <;> cases tp' <;> simp [Cache.setMap, Cache.mapOf, Cache.get]

theorem applyHook_del_get (c : Cache) (tp : RelType) (n : String)
    (tp' : RelType) (k : String) :
    (applyHook c (.del tp n)).get tp' k =
      if tp' = tp ∧ k = n then none else c.get tp' k := by
  simp only [applyHook, cacheGet_setMap]
  by_cases h1 : tp' = tp
  · subst h1; rw [alGet_del]; by_cases h2 : k = n <;> simp [h2, Cache.get]
  · simp [h1]

theorem applyHook_put_get (c : Cache) (tp : RelType) (n : String) (o : Relation)
    (tp' : RelType) (k : String) :
    (applyHook c (.put tp n o)).get tp' k =
      if tp' = tp ∧ k = n then some o else c.get tp' k := by
  simp only [applyHook, cacheGet_setMap]
  by_cases h1 : tp' = tp
  · subst h1; rw [alGet_put]; by_cases h2 : k = n <;> simp [h2, Cache.get]
  · simp [h1]

theorem objectExists_false_get (c : Cache) (n : String)
    (h : c.objectExists n = false) (tp : RelType) : c.get tp n = none := by
  have aux : ∀ (o : Option Relation), o.isSome = false → o = none := by
    intro o ho; cases o <;> simp_all
  simp only [Cache.objectExists, Bool.or_eq_false_iff] at h
  cases tp
  · exact aux _ h.1.1
  · exact aux _ h.2
  · exact aux _ h.1.2

theorem genUnusedName_go_fresh (c : Cache) (base : String) :
    ∀ (fuel i : Nat) (n : String), genUnusedNameGo.go c base fuel i = some n →
      c.objectExists n = false := by
  intro fuel
  induction fuel with
  | zero => intro i n h; simp [genUnusedNameGo.go] at h
  | succ f ih =>
    intro i n h
    simp only [genUnusedNameGo.go] at h
    by_cases hex : c.objectExists (if i = 0 then base else base ++ Nat.repr i) = true
    · rw [if_pos hex] at h
      exact ih _ _ h
    · rw [if_neg hex] at h
      cases h
      simpa using hex

theorem genUnusedName_fresh (c : Cache) (base n : String)
    (h : genUnusedNameGo c base = some n) : c.objectExists n = false :=
  genUnusedName_go_fresh c base _ 0 n h

theorem add_restore (c : Cache) (tp : RelType) (n : String) (o : Relation)
    (hoe : c.objectExists n = false) (tp' : RelType) (k : String) :
    (applyHook (c.setMap tp (alPut (c.mapOf tp) n o)) (.del tp n)).get tp' k =
      c.get tp' k := by
  rw [applyHook_del_get]
  by_cases hx : tp' = tp ∧ k = n
  · obtain ⟨rfl, rfl⟩ := hx
    simp [objectExists_false_get c _ hoe]
  · rw [cacheGet_setMap]
    by_cases h1 : tp' = tp
    · subst h1
      rw [alGet_put]
      have h2 : k ≠ n := fun hh => hx ⟨rfl, hh⟩
      simp [h2, hx, Cache.get]
    · simp [h1, hx]

theorem put_restore (c : Cache) (tp : RelType) (n : String) (o old : Relation)
    (hold : c.get tp n = some old) (tp' : RelType) (k : String) :
    (applyHook (c.setMap tp (alPut (c.mapOf tp) n o)) (.put tp n old)).get tp' k =
      c.get tp' k := by
  rw [applyHook_put_get]
  by_cases hx : tp' = tp ∧ k = n
  · obtain ⟨rfl, rfl⟩ := hx
    simp [hold]
  · rw [cacheGet_setMap]
    by_cases h1 : tp' = tp
    · subst h1
      rw [alGet_put]
      have h2 : k ≠ n := fun hh => hx ⟨rfl, hh⟩
      simp [h2, hx, Cache.get]
    · simp [h1, hx]

theorem del_restore (c : Cache) (tp : RelType) (n : String) (o : Relation)
    (hold : c.get tp n = some o) (tp' : RelType) (k : String) :
    (applyHook (c.setMap tp (alDel (c.mapOf tp) n)) (.put tp n o)).get tp' k =
      c.get tp' k := by
  rw [applyHook_put_get]
  by_cases hx : tp' = tp ∧ k = n
  · obtain ⟨rfl, rfl⟩ := hx
    simp [hold]
  · rw [cacheGet_setMap]
    by_cases h1 : tp' = tp
    · subst h1
      rw [alGet_del]
      have h2 : k ≠ n := fun hh => hx ⟨rfl, hh⟩
      simp [h2, hx, Cache.get]
    · simp [h1, hx]

theorem rtype_setName (o : Relation) (n : String) : (o.setName n).rtype = o.rtype := by
  cases o <;> simp [Relation.setName, Relation.rtype]

theorem cacheOpRun_rollback (c c' : Cache) (hs : List Hook) (op : CacheOp)
    (h : cacheOpRun c op = .ok (c', hs)) :
    (∃ hk, hs = [hk]) ∧
      ∀ tp k, (rollbackHooks c' hs).get tp k = c.get tp k := by
  cases op with
  | add o =>
    simp only [cacheOpRun, cacheAdd] at h
    split at h
    · split at h
      · exact absurd h (by simp)
      · next hex =>
        cases h
        refine ⟨⟨_, rfl⟩, fun tp k => ?_⟩
        simp only [rollbackHooks, List.foldr]
        exact add_restore c o.rtype o.name o (by simpa using hex) tp k
    · cases hgen : genUnusedNameGo c o.generateBaseName with
      | none => rw [hgen] at h; exact absurd h (by simp)
      | some nm =>
        rw [hgen] at h
        cases h
        refine ⟨⟨_, rfl⟩, fun tp k => ?_⟩
        simp only [rollbackHooks, List.foldr]
        exact add_restore c o.rtype nm (o.setName nm)
          (genUnusedName_fresh c o.generateBaseName nm hgen) tp k
  | replace o =>
    simp only [cacheOpRun, cacheReplace] at h
    cases hget : alGet (c.mapOf o.rtype) o.name with
    | none => rw [hget] at h; exact absurd h (by simp)
    | some old =>
      rw [hget] at h
      cases h
      refine ⟨⟨_, rfl⟩, fun tp k => ?_⟩
      simp only [rollbackHooks, List.foldr]
      exact put_restore c o.rtype o.name o old hget tp k
  | delete tp₀ n =>
    simp only [cacheOpRun, cacheDelete] at h
    cases hget : alGet (c.mapOf tp₀) n with
    | none => rw [hget] at h; exact absurd h (by simp [Except.map])
    | some o =>
      rw [hget] at h
      simp only [Except.map] at h
      cases h
      refine ⟨⟨_, rfl⟩, fun tp k => ?_⟩
      simp only [rollbackHooks, List.foldr]
      exact del_restore c tp₀ n o hget tp k

theorem rollbackHooks_append (c : Cache) (h1 h2 : List Hook) :
    rollbackHooks c (h1 ++ h2) = rollbackHooks (rollbackHooks c h2) h1 := by
  simp [rollbackHooks, List.foldr_append]

theorem applyHook_congr {a b : Cache} (hab : ∀ tp k, a.get tp k = b.get tp k)
    (h : Hook) : ∀ tp k, (applyHook a h).get tp k = (applyHook b h).get tp k := by
  intro tp k
  cases h with
  | del tp₀ n => rw [applyHook_del_get, applyHook_del_get, hab]
  | put tp₀ n o => rw [applyHook_put_get, applyHook_put_get, hab]

theorem rollbackHooks_congr {a b : Cache} (hab : ∀ tp k, a.get tp k = b.get tp k)
    (hs : List Hook) :
    ∀ tp k, (rollbackHooks a hs).get tp k = (rollbackHooks b hs).get tp k := by
  induction hs with
  | nil => exact hab
  | cons h t ih =>
    intro tp k
    simp only [rollbackHooks, List.foldr] at ih ⊢
    exact applyHook_congr ih h tp k

/-- Claim C4: every successful catalog-cache mutation (`Add`, `Replace`,
`Delete`) registers exactly one compensating rollback hook on the
transaction, and running the hooks accumulated by any mutation list in
reverse (LIFO) order restores the three cache maps exactly (pointwise, i.e.
as the extensional Go maps) to their state before the mutations. -/
theorem C4_cache_rollback_restores (ops : List CacheOp) (c : Cache) :
    (∀ tp k, (rollbackHooks (runOps c ops).1 (runOps c ops).2).get tp k = c.get tp k) ∧
      (∀ (c₀ : Cache) (op : CacheOp) (c₁ : Cache) (hs : List Hook),
        cacheOpRun c₀ op = .ok (c₁, hs) → ∃ hk, hs = [hk]) := by
  constructor
  · induction ops generalizing c with
    | nil => intro tp k; simp [runOps, rollbackHooks]
    | cons op ops ih =>
      intro tp k
      simp only [runOps]
      cases hrun : cacheOpRun c op with
      | error e => simpa [hrun] using ih c tp k
      | ok r =>
        obtain ⟨c₁, hs⟩ := r
        simp only
        rw [rollbackHooks_append]
        obtain ⟨_, hrest⟩ := cacheOpRun_rollback c c₁ hs op hrun
        have hmid := ih c₁
        have := rollbackHooks_congr hmid hs tp k
        rw [this]
        exact hrest tp k
  · intro c₀ op c₁ hs h
    exact (cacheOpRun_rollback c₀ c₁ hs op h).1

/-- Claim C9: for an index registered in the catalog (with its catalog row
present), `DropIndex` fails whenever the index's owner is non-empty (its
owner paths are set, i.e. it was created implicitly by a table constraint),
and otherwise removes the cache entry, deletes the index's catalog row and
truncates the index's namespace. -/
theorem C9_dropIndex_owner_guard (db : DB) (name : String) (info : IndexInfo)
    (hinfo : getIndexInfo db name = .ok info)
    (hrow : (alGet db.rows info.indexName).isSome = true) :
    (info.owner.paths ≠ [] → DropIndex db name = .error .ownedIndex) ∧
    (info.owner.paths = [] →
      ∃ db', DropIndex db name = .ok db' ∧
        alGet db'.cache.indexes name = none ∧
        alGet db'.rows info.indexName = none ∧
        alGet db'.stores info.storeNamespace = some []) := by
  have halg : alGet db.cache.indexes name = some (.index info) := by
    unfold getIndexInfo at hinfo
    cases h : alGet db.cache.indexes name with
    | none => rw [h] at hinfo; exact absurd hinfo (by simp)
    | some r =>
      rw [h] at hinfo
      cases r with
      | index ii => cases hinfo; rfl
      | table ti => exact absurd hinfo (by simp)
      | seq si => exact absurd hinfo (by simp)
  have hdel : cacheDelete db.cache .index name =
      .ok ((db.cache.setMap .index (alDel db.cache.indexes name),
        [.put .index name (.index info)]), .index info) := by
    simp [cacheDelete, Cache.mapOf, halg]
  obtain ⟨r, hr⟩ : ∃ r, alGet db.rows info.indexName = some r := by
    cases hrr : alGet db.rows info.indexName with
    | none => rw [hrr] at hrow; simp at hrow
    | some r => exact ⟨r, rfl⟩
  constructor
  · intro how
    simp only [DropIndex, hinfo]
    simp [bind, Except.bind, how]
  · intro how
    refine ⟨{ cache := db.cache.setMap .index (alDel db.cache.indexes name),
              rows := alDel db.rows info.indexName,
              stores := alPut db.stores info.storeNamespace [],
              hooks := db.hooks ++ [.put .index name (.index info)] }, ?_, ?_, ?_, ?_⟩
    · simp only [DropIndex, hinfo, bind, Except.bind, how, ne_eq, not_true_eq_false,
        reduceIte, dbCacheDelete, hdel, dropIndexHelper, truncateNs, catalogDelete, hr,
        pure, Except.pure]
    · simp only [Cache.setMap]
      rw [alGet_del]
      simp
    · rw [alGet_del]; simp
    · rw [alGet_put]; simp

/-- Concrete index info for the C9 witness. -/
def iiC9 : IndexInfo := { indexName := "i1", tableName := "t", storeNamespace := 11 }

/-- Concrete catalog state for the C9 witness. -/
def dbC9 : DB :=
  { cache := { indexes := [("i1", .index iiC9)] },
    rows := [("i1", .index iiC9)],
    stores := [(11, [([2], [2])])] }

/-- Witness for C9: dropping an unowned index removes the cache entry and
the catalog row and truncates its namespace. -/
theorem C9_dropIndex_witness :
    ∃ db', DropIndex dbC9 "i1" = .ok db' ∧
      alGet db'.cache.indexes "i1" = none ∧
      alGet db'.rows "i1" = none ∧
      alGet db'.stores 11 = some [] :=
  (C9_dropIndex_owner_guard dbC9 "i1" iiC9 (by decide) (by decide)).2 (by decide)

/-- Table, index and sequence of the C2 failing input. -/
def tiC2 : TableInfo := { tableName := "t", storeNamespace := 10, docidSequenceName := "t_seq" }

/-- Dependent index of the C2 failing input. -/
def iiC2 : IndexInfo := { indexName := "i1", tableName := "t", storeNamespace := 11 }

/-- Surrogate docid sequence of the C2 failing input. -/
def siC2 : SequenceInfo := { name := "t_seq", owner := { tableName := "t" } }

/-- C2 failing input: a catalog holding table `t` with docid sequence
`t_seq`, one dependent index and non-empty namespaces. -/
def dbC2 : DB :=
  { cache := { tables := [("t", .table tiC2)],
               indexes := [("i1", .index iiC2)],
               sequences := [("t_seq", .seq siC2)] },
    rows := [("t", .table tiC2), ("i1", .index iiC2), ("t_seq", .seq siC2)],
    stores := [(10, [([1], [1])]), (11, [([2], [2])])] }

/-- Claim C2: the source's `DropTable` does drop the dependent index, the
table's cache entry and catalog row, and truncates the namespaces — but it
never drops the table's surrogate docid sequence: after `DropTable t` the
sequence `t_seq` is still in the cache and its catalog row still exists,
contradicting the specified cascade. -/
theorem C2_dropTable_keeps_docid_sequence :
    ∃ db', DropTable dbC2 "t" = .ok db' ∧
      alGet db'.cache.sequences "t_seq" = some (.seq siC2) ∧
      alGet db'.rows "t_seq" = some (.seq siC2) ∧
      alGet db'.cache.tables "t" = none ∧
      alGet db'.rows "t" = none ∧
      alGet db'.cache.indexes "i1" = none ∧
      alGet db'.rows "i1" = none ∧
      alGet db'.stores 10 = some [] ∧
      alGet db'.stores 11 = some [] := by
  exact ⟨_, rfl, by decide⟩

/-- Table of the C3 failing input. -/
def tiC3 : TableInfo := { tableName := "t1", storeNamespace := 10 }

/-- Index of the C3 failing input. -/
def iiC3 : IndexInfo := { indexName := "i1", tableName := "t1", storeNamespace := 11 }

/-- Owned sequence of the C3 failing input. -/
def siC3 : SequenceInfo := { name := "s1", owner := { tableName := "t1" } }

/-- C3 failing input: a catalog holding table `t1`, one dependent index and
one sequence owned by `t1`. -/
def dbC3 : DB :=
  { cache := { tables := [("t1", .table tiC3)],
               indexes := [("i1", .index iiC3)],
               sequences := [("s1", .seq siC3)] },
    rows := [("t1", .table tiC3), ("i1", .index iiC3), ("s1", .seq siC3)] }

/-- Claim C3: after `RenameTable t1 t2` the table row and cache entry and
the owned sequence's row and cache entry all carry `t2`, but the INDEX
catalog row still carries the old table name `t1` while its cache entry
carries `t2`: the source passes the old `idx` record to
`CatalogTable.Replace`, so the persisted rows and the cache diverge. -/
theorem C3_renameTable_index_row_diverges :
    ∃ db', RenameTable dbC3 "t1" "t2" = .ok db' ∧
      alGet db'.cache.indexes "i1" = some (.index { iiC3 with tableName := "t2" }) ∧
      alGet db'.rows "i1" = some (.index iiC3) ∧
      alGet db'.cache.indexes "i1" ≠ alGet db'.rows "i1" ∧
      alGet db'.cache.tables "t2" = some (.table { tiC3 with tableName := "t2" }) ∧
      alGet db'.rows "t2" = some (.table { tiC3 with tableName := "t2" }) ∧
      alGet db'.cache.sequences "s1" = some (.seq { siC3 with owner := { tableName := "t2" } }) ∧
      alGet db'.rows "s1" = some (.seq { siC3 with owner := { tableName := "t2" } }) := by
  exact ⟨_, rfl, by decide⟩

/-- The preference realised by the selection loop: `sel` is at least as
good as `c` when `c` associates fewer filter nodes, or equally many at a
cost at least as large. -/
def notWorse (sel c : Candidate) : Prop :=
  c.nodes.length ≤ sel.nodes.length ∧
    (c.nodes.length = sel.nodes.length → sel.Cost ≤ c.Cost)

theorem notWorse_refl (s : Candidate) : notWorse s s :=
  ⟨le_refl _, fun _ => le_refl _⟩

theorem notWorse_trans {a b c : Candidate} (hab : notWorse a b) (hbc : notWorse b c) :
    notWorse a c := by
  obtain ⟨h1, h2⟩ := hab
  obtain ⟨h3, h4⟩ := hbc
  refine ⟨h3.trans h1, fun h => ?_⟩
  have hba : b.nodes.length = a.nodes.length := by omega
  have hcb : c.nodes.length = b.nodes.length := by omega
  exact le_trans (h2 hba) (h4 hcb)

theorem notWorse_of_not_beats {s c : Candidate}
    (h : ¬(s.nodes.length < c.nodes.length ∨
      (s.nodes.length = c.nodes.length ∧ c.Cost < s.Cost))) : notWorse s c := by
  push_neg at h
  obtain ⟨h1, h2⟩ := h
  refine ⟨by omega, fun he => ?_⟩
  exact h2 he.symm

theorem beats_absorb {s c sel : Candidate}
    (hbeats : s.nodes.length < c.nodes.length ∨
      (s.nodes.length = c.nodes.length ∧ c.Cost < s.Cost))
    (hsc : notWorse sel c) : notWorse sel s := by
  obtain ⟨h1, h2⟩ := hsc
  rcases hbeats with h | ⟨he, hc⟩
  · refine ⟨by omega, fun hh => ?_⟩
    omega
  · refine ⟨by omega, fun hh => ?_⟩
    have hce : c.nodes.length = sel.nodes.length := by omega
    exact le_trans (h2 hce) (le_of_lt hc)

theorem selectBest_go_spec (rest : List (Option Candidate)) :
    ∀ (s sel : Candidate), selectBest (some s) rest = some sel →
      (sel = s ∨ sel ∈ rest.filterMap id) ∧ notWorse sel s ∧
        ∀ c ∈ rest.filterMap id, notWorse sel c := by
  induction rest with
  | nil =>
    intro s sel h
    simp only [selectBest] at h
    cases h
    exact ⟨Or.inl rfl, notWorse_refl _, by simp⟩
  | cons hd tl ih =>
    intro s sel h
    cases hd with
    | none =>
      simp only [selectBest] at h
      obtain ⟨hm, hs, hall⟩ := ih s sel h
      exact ⟨hm, hs, by simpa using hall⟩
    | some c =>
      simp only [selectBest] at h
      by_cases hcond : s.nodes.length < c.nodes.length ∨
          (s.nodes.length = c.nodes.length ∧ c.Cost < s.Cost)
      · rw [if_pos hcond] at h
        obtain ⟨hm, hsel_c, hall⟩ := ih c sel h
        refine ⟨?_, beats_absorb hcond hsel_c, ?_⟩
        · rcases hm with rfl | hm
          · exact Or.inr (by simp)
          · exact Or.inr (by simp [hm])
        · intro x hx
          simp only [List.filterMap_cons, id] at hx
          rcases List.mem_cons.mp hx with rfl | hx'
          · exact hsel_c
          · exact hall x hx'
      · rw [if_neg hcond] at h
        obtain ⟨hm, hsel_s, hall⟩ := ih s sel h
        have hsc : notWorse s c := notWorse_of_not_beats hcond
        refine ⟨?_, hsel_s, ?_⟩
        · rcases hm with rfl | hm
          · exact Or.inl rfl
          · exact Or.inr (by simp [hm])
        intro x hx
        simp only [List.filterMap_cons, id] at hx
        rcases List.mem_cons.mp hx with rfl | hx'
        · exact notWorse_trans hsel_s hsc
        · exact hall x hx'

theorem selectBest_none_spec (rest : List (Option Candidate)) :
    ∀ (sel : Candidate), selectBest none rest = some sel →
      sel ∈ rest.filterMap id ∧ ∀ c ∈ rest.filterMap id, notWorse sel c := by
  induction rest with
  | nil => intro sel h; simp [selectBest] at h
  | cons hd tl ih =>
    intro sel h
    cases hd with
    | none =>
      simp only [selectBest] at h
      obtain ⟨h1, h2⟩ := ih sel h
      exact ⟨by simpa using h1, by simpa using h2⟩
    | some c =>
      simp only [selectBest] at h
      obtain ⟨hm, hsc, hall⟩ := selectBest_go_spec tl c sel h
      refine ⟨?_, ?_⟩
      · rcases hm with rfl | hm
        · simp
        · simp [hm]
      · intro x hx
        simp only [List.filterMap_cons, id] at hx
        rcases List.mem_cons.mp hx with rfl | hx'
        · exact hsc
        · exact hall x hx'

/-- Claim C1: when the pipeline head is a ranges-free table scan with
indexable filters (so that `SelectIndex` builds the candidates of
`candidatesOf`: the primary key, then every declared index), the selection
loop chooses a candidate of that set which associates the most filter
nodes, breaking ties by minimum `candidate.Cost`, where the cost is the
ranges cost, plus 20 for a secondary index, minus 10 for a unique one,
minus the number of associated filters. -/
theorem C1_selectIndex_most_filters_min_cost
    (ti : TableInfo) (idxs : List IndexInfo) (nodes : List FilterNode)
    (pkCand : Option Candidate) (idxCands : List (Option Candidate)) (sel : Candidate)
    (hcands : candidatesOf ti idxs nodes = .ok (pkCand, idxCands))
    (hsel : selectBest pkCand idxCands = some sel) :
    sel ∈ pkCand.toList ++ idxCands.filterMap id ∧
    (∀ c ∈ pkCand.toList ++ idxCands.filterMap id,
        c.nodes.length ≤ sel.nodes.length ∧
          (c.nodes.length = sel.nodes.length → sel.Cost ≤ c.Cost)) ∧
    sel.Cost = sel.rangesCost + (if sel.isIndex then 20 else 0)
      - (if sel.isUnique then 10 else 0) - sel.nodes.length := by
  have hform : sel.Cost = sel.rangesCost + (if sel.isIndex then 20 else 0)
      - (if sel.isUnique then 10 else 0) - sel.nodes.length := by
    unfold Candidate.Cost
    cases hI : sel.isIndex <;> cases hU : sel.isUnique <;> simp [hI, hU]
  cases pkCand with
  | none =>
    obtain ⟨hm, hall⟩ := selectBest_none_spec idxCands sel hsel
    exact ⟨by simpa using hm, fun c hc => hall c (by simpa using hc), hform⟩
  | some s =>
    obtain ⟨hm, hs, hall⟩ := selectBest_go_spec idxCands s sel hsel
    refine ⟨?_, ?_, hform⟩
    · rcases hm with rfl | hm
      · simp [Option.toList]
      · simp [Option.toList, hm]
    · intro c hc
      simp only [Option.toList, List.mem_append, List.mem_singleton] at hc
      rcases hc with rfl | hc'
      · exact hs
      · exact hall c hc'

/-- Candidate produced for the C1 witness index. -/
def candC1 : Candidate :=
  { nodes := [{ path := [PathFragment.field "c"], operator := .EQ, operand := .litInt 3 }],
    replaceRootBy := [.indexScan "idx_foo_c"
      [{ paths := [[PathFragment.field "c"]], min := [.litInt 3], exact := true }]],
    rangesCost := 0, isIndex := true, isUnique := true }

/-- Witness for C1: a table with primary key `k` and a unique index on `c`,
filtered on `a` and `c`; the unique index candidate is selected and is
optimal. -/
theorem C1_selectIndex_witness :
    candC1 ∈ (none : Option Candidate).toList ++ [some candC1].filterMap id ∧
    (∀ c ∈ (none : Option Candidate).toList ++ [some candC1].filterMap id,
        c.nodes.length ≤ candC1.nodes.length ∧
          (c.nodes.length = candC1.nodes.length → candC1.Cost ≤ c.Cost)) ∧
    candC1.Cost = candC1.rangesCost + (if candC1.isIndex then 20 else 0)
      - (if candC1.isUnique then 10 else 0) - candC1.nodes.length :=
  C1_selectIndex_most_filters_min_cost
    { tableName := "foo", pk := some [[PathFragment.field "k"]] }
    [{ indexName := "idx_foo_c", tableName := "foo", storeNamespace := 11,
       unique := true, paths := [[PathFragment.field "c"]] }]
    [{ path := [PathFragment.field "a"], operator := .EQ, operand := .litInt 1 },
     { path := [PathFragment.field "c"], operator := .EQ, operand := .litInt 3 }]
    none [some candC1] candC1 (by decide) (by decide)

theorem walkExpr_ok_of_ne_nil :
    ∀ (l : List (List Expr)), l ≠ [] → ∃ rows, walkExpr l = .ok rows := by
  intro l
  induction l with
  | nil => intro h; exact absurd rfl h
  | cons row rest ih =>
    intro _
    cases rest with
    | nil => exact ⟨row.map fun e => [e], rfl⟩
    | cons y t =>
      obtain ⟨rows, hrows⟩ := ih (by simp)
      exact ⟨row.flatMap fun e => rows.map fun r => e :: r,
        by simp [walkExpr, hrows, bind, Except.bind]⟩

theorem rowOfFilter_ok (f : FilterNode)
    (hwf : f.operator = Token.IN → isLitList f.operand = true) :
    ∃ r, rowOfFilter f = .ok r := by
  unfold rowOfFilter
  by_cases hop : f.operator = Token.IN
  · have hll := hwf hop
    rw [if_neg (fun hne => hne hop)]
    cases hfo : f.operand <;> rw [hfo] at hll <;> simp [isLitList] at hll ⊢
  · rw [if_pos hop]
    exact ⟨[f.operand], rfl⟩

theorem mapM_rowOfFilter_ok :
    ∀ (filters : List FilterNode),
      (∀ f ∈ filters, f.operator = Token.IN → isLitList f.operand = true) →
      ∃ l, filters.mapM rowOfFilter = .ok l ∧ l.length = filters.length := by
  intro filters
  induction filters with
  | nil => intro _; exact ⟨[], rfl, rfl⟩
  | cons f fs ih =>
    intro hwf
    obtain ⟨r, hr⟩ := rowOfFilter_ok f (hwf f (by simp))
    obtain ⟨l, hl, hlen⟩ := ih fun g hg => hwf g (by simp [hg])
    refine ⟨r :: l, ?_, by simp [hlen]⟩
    rw [List.mapM_cons, hr, hl]
    rfl

theorem associateLoop_subset (nodes : List FilterNode) :
    ∀ (paths : List DocPath) (hasIn : Bool) (found : List FilterNode)
      (x : FilterNode), x ∈ (associateLoop nodes paths hasIn found).1 →
        x ∈ found ∨ x ∈ nodes := by
  intro paths
  induction paths with
  | nil =>
    intro hasIn found x hx
    simp only [associateLoop] at hx
    exact Or.inl hx
  | cons p ps ih =>
    intro hasIn found x hx
    cases hgp : getByPath nodes p with
    | none =>
      simp only [associateLoop, hgp] at hx
      exact Or.inl hx
    | some n =>
      simp only [associateLoop, hgp] at hx
      have hn : n ∈ nodes := List.mem_of_find?_eq_some hgp
      by_cases hop : n.operator = .EQ ∨ n.operator = .IN
      · rw [if_pos hop] at hx
        rcases ih _ _ x hx with hf | hn'
        · rcases List.mem_append.mp hf with hf' | hf''
          · exact Or.inl hf'
          · rw [List.mem_singleton.mp hf'']
            exact Or.inr hn
        · exact Or.inr hn'
      · rw [if_neg hop] at hx
        by_cases hin : hasIn
        · rw [if_pos hin] at hx
          exact Or.inl hx
        · rw [if_neg hin] at hx
          rcases List.mem_append.mp hx with hf | hf''
          · exact Or.inl hf
          · rw [List.mem_singleton.mp hf'']
            exact Or.inr hn

theorem isFilterIndexable_IN_operand (e : Expr) (fn : FilterNode)
    (h : isFilterIndexable e = some fn) (hop : fn.operator = Token.IN) :
    isLitList fn.operand = true := by
  unfold isFilterIndexable at h
  cases htok : exprToken e with
  | none => rw [htok] at h; exact absurd h (by simp)
  | some tok =>
    rw [htok] at h
    cases hcan : operatorCanUseIndex e with
    | none => rw [hcan] at h; exact absurd h (by simp)
    | some pe =>
      rw [hcan] at h
      obtain ⟨p, operand⟩ := pe
      cases h
      cases e with
      | binop tok' l r =>
        have htok2 : tok' = tok := by simpa [exprToken] using htok
        subst htok2
        have hop2 : tok' = Token.IN := hop
        rw [hop2] at hcan
        cases hlp : l.asPath with
        | none => simp [operatorCanUseIndex, hlp] at hcan
        | some lp =>
          cases hrp : r.asPath with
          | some rp => simp [operatorCanUseIndex, hlp, hrp] at hcan
          | none =>
            by_cases hcp : exprContainsPath r = true
            · simp [operatorCanUseIndex, hlp, hrp, hcp] at hcan
            · by_cases hll : isLitList r = true
              · simp only [operatorCanUseIndex, hlp, hrp, hcp, hll, if_true, if_false,
                  Bool.false_eq_true, reduceIte, Option.some.injEq, Prod.mk.injEq] at hcan
                obtain ⟨h1, h2⟩ := hcan
                show isLitList operand = true
                rw [← h2]
                exact hll
              · simp [operatorCanUseIndex, hlp, hrp, hcp, hll] at hcan
      | betweenOp x lo hi =>
        have htok2 : Token.BETWEEN = tok := by simpa [exprToken] using htok
        have hop2 : tok = Token.IN := hop
        exact Token.noConfusion (htok2.trans hop2)
      | litInt n => simp [exprToken] at htok
      | path q => simp [exprToken] at htok
      | list es => simp [exprToken] at htok

theorem buildRanges_ok (paths : List DocPath) (filters : List FilterNode)
    (hne : filters ≠ [])
    (hwf : ∀ f ∈ filters, f.operator = Token.IN → isLitList f.operand = true) :
    ∃ rs, buildRangesFromFilterNodes paths filters = .ok rs := by
  obtain ⟨l, hl, hlen⟩ := mapM_rowOfFilter_ok filters hwf
  have hlne : l ≠ [] := by
    intro hnil
    rw [hnil] at hlen
    exact hne (List.eq_nil_of_length_eq_zero hlen.symm)
  obtain ⟨rows, hrows⟩ := walkExpr_ok_of_ne_nil l hlne
  refine ⟨rows.map fun row => buildRangeFromOperator .EQ (paths.take row.length) row, ?_⟩
  unfold buildRangesFromFilterNodes
  rw [hl]
  simp only [bind, Except.bind, hrows]

theorem associate_never_panics (treeName : String) (isIndex isUnique : Bool)
    (paths : List DocPath) (nodes : List FilterNode)
    (hwf : ∀ n ∈ nodes, n.operator = Token.IN → isLitList n.operand = true) :
    (associateIndexWithNodes treeName isIndex isUnique paths nodes).isOk = true := by
  simp only [associateIndexWithNodes]
  by_cases hempty : (associateLoop nodes paths false []).1 = []
  · simp [hempty, bind, Except.bind, pure, Except.pure, Except.isOk, Except.toBool]
  · have hsub : ∀ x ∈ (associateLoop nodes paths false []).1, x ∈ nodes := by
      intro x hx
      rcases associateLoop_subset nodes paths false [] x hx with h | h
      · simp at h
      · exact h
    by_cases hin : (associateLoop nodes paths false []).2
    · obtain ⟨rs, hb⟩ := buildRanges_ok paths (associateLoop nodes paths false []).1
        hempty fun f hf => hwf f (hsub f hf)
      simp [hempty, hin, hb, bind, Except.bind, pure, Except.pure, Except.isOk,
        Except.toBool]
    · simp [hempty, hin, bind, Except.bind, pure, Except.pure, Except.isOk,
        Except.toBool]

/-- Claim C10: `walkExpr` reads `l[0]` before its `len(l) == 0` guard, so an
empty outer list is a panic (the `.error` outcome) and the guard is dead
code; under `SelectIndex` the branch is unreachable: every filter node
enumerated by `isFilterIndexable` has a literal-list operand whenever its
operator is IN, `associateIndexWithNodes` hands `buildRangesFromFilterNodes`
at least one associated filter (it returns `none` on an empty association),
hence `walkExpr` always receives at least one row and the whole association
never panics. -/
theorem C10_walkExpr_panic_unreachable :
    walkExpr ([] : List (List Expr)) = .error () ∧
    (∀ (e : Expr) (fn : FilterNode), isFilterIndexable e = some fn →
      fn.operator = Token.IN → isLitList fn.operand = true) ∧
    (∀ (paths : List DocPath) (filters : List FilterNode), filters ≠ [] →
      (∀ f ∈ filters, f.operator = Token.IN → isLitList f.operand = true) →
      (buildRangesFromFilterNodes paths filters).isOk = true) ∧
    (∀ (treeName : String) (isIndex isUnique : Bool) (paths : List DocPath)
      (nodes : List FilterNode),
      (∀ n ∈ nodes, n.operator = Token.IN → isLitList n.operand = true) →
      (associateIndexWithNodes treeName isIndex isUnique paths nodes).isOk = true) := by
  refine ⟨rfl, isFilterIndexable_IN_operand, ?_, associate_never_panics⟩
  intro paths filters hne hwf
  obtain ⟨rs, hb⟩ := buildRanges_ok paths filters hne hwf
  simp [hb, Except.isOk, Except.toBool]

/-- Witness for C10: a one-filter association builds its ranges without
reaching the panic branch. -/
theorem C10_witness :
    (buildRangesFromFilterNodes [[PathFragment.field "a"]]
      [{ path := [PathFragment.field "a"], operator := Token.EQ,
         operand := Expr.litInt 1 }]).isOk = true :=
  C10_walkExpr_panic_unreachable.2.2.1 [[PathFragment.field "a"]]
    [{ path := [PathFragment.field "a"], operator := Token.EQ,
       operand := Expr.litInt 1 }] (by decide) (by decide)

theorem updateSetLoop_spec (pk : Option (List DocPath)) :
    ∀ (pairs : List (DocPath × Expr)) (b : Bool) (ops : List Operator),
      updateSetLoop pk pairs b ops =
        (b || pairs.any fun pr =>
            match pk with
            | some pkPaths => pkPaths.any fun p => decide (p = pr.1)
            | none => false,
          ops ++ pairs.map fun pr => Operator.pathsSet pr.1 pr.2) := by
  intro pairs
  induction pairs with
  | nil => intro b ops; simp [updateSetLoop]
  | cons pair rest ih =>
    intro b ops
    simp only [updateSetLoop, ih, List.any_cons, List.map_cons, Prod.mk.injEq]
    constructor
    · cases b <;> simp [Bool.or_assoc]
    · simp

/-- Claim C7: for an UPDATE ... SET on a table with a primary key, the
prepared pipeline's mutation stage is `TableDelete` followed by
`TableInsert` — i.e., up to the trailing `IndexInsert` operators the
pipeline ends with delete+insert — if and only if some SET target path
equals a primary-key path; otherwise the stage is `TableReplace`, which
keeps the row's key. -/
theorem C7_update_pipeline_pk_modified (stmt : UpdateStmt)
    (pairs : List (DocPath × Expr)) (pkPaths : List DocPath)
    (indexNames : List String) (ops : List Operator)
    (hset : stmt.setPairs = some pairs)
    (hprep : updatePrepare stmt (some pkPaths) indexNames = .ok ops) :
    ops = ([Operator.tableScan stmt.tableName []] ++
        (match stmt.whereExpr with
         | some w => [Operator.docsFilter w]
         | none => []) ++
        (pairs.map fun pr => Operator.pathsSet pr.1 pr.2) ++
        [Operator.tableValidate stmt.tableName] ++
        indexNames.map Operator.indexDelete) ++
      (if pairs.any fun pr => pkPaths.any fun p => decide (p = pr.1) then
        [Operator.tableDelete stmt.tableName, Operator.tableInsert stmt.tableName]
       else [Operator.tableReplace stmt.tableName]) ++
      indexNames.map Operator.indexInsert ∧
    ((∃ pre, ops = pre ++
        [Operator.tableDelete stmt.tableName, Operator.tableInsert stmt.tableName] ++
        indexNames.map Operator.indexInsert) ↔
      (pairs.any fun pr => pkPaths.any fun p => decide (p = pr.1)) = true) := by
  have hops : ops = ([Operator.tableScan stmt.tableName []] ++
      (match stmt.whereExpr with
       | some w => [Operator.docsFilter w]
       | none => []) ++
      (pairs.map fun pr => Operator.pathsSet pr.1 pr.2) ++
      [Operator.tableValidate stmt.tableName] ++
      indexNames.map Operator.indexDelete) ++
      (if pairs.any fun pr => pkPaths.any fun p => decide (p = pr.1) then
        [Operator.tableDelete stmt.tableName, Operator.tableInsert stmt.tableName]
       else [Operator.tableReplace stmt.tableName]) ++
      indexNames.map Operator.indexInsert := by
    have h := hprep
    unfold updatePrepare at h
    rw [hset] at h
    simp only [updateSetLoop_spec, Bool.false_or, bind, Except.bind, pure,
      Except.pure] at h
    cases h
    cases hany : pairs.any fun pr => pkPaths.any fun p => decide (p = pr.1) <;>
      cases hw : stmt.whereExpr <;> simp [hany, hw, List.append_assoc]
  refine ⟨hops, ?_, ?_⟩
  · rintro ⟨pre, hpre⟩
    by_contra hany
    simp only [Bool.not_eq_true] at hany
    rw [hany] at hops
    simp only [Bool.false_eq_true, reduceIte] at hops
    have hx := hpre.symm.trans hops
    have hcanc := List.append_cancel_right hx
    have hl1 := congrArg List.getLast? hcanc
    rw [show pre ++ [Operator.tableDelete stmt.tableName,
        Operator.tableInsert stmt.tableName] =
      (pre ++ [Operator.tableDelete stmt.tableName]) ++
        [Operator.tableInsert stmt.tableName] from by simp,
      List.getLast?_concat, List.getLast?_concat] at hl1
    exact Operator.noConfusion (Option.some.inj hl1)
  · intro hany
    rw [hany] at hops
    simp only [reduceIte] at hops
    exact ⟨_, hops⟩

/-- Witness for C7: updating the primary-key column `k` of a table keyed by
`k` prepares a delete+insert pipeline. -/
theorem C7_update_witness :
    ∃ ops, updatePrepare
        { tableName := "t",
          setPairs := some [([PathFragment.field "k"], Expr.litInt 5)] }
        (some [[PathFragment.field "k"]]) ["i1"] = .ok ops ∧
      (∃ pre, ops = pre ++ [Operator.tableDelete "t", Operator.tableInsert "t"] ++
        ["i1"].map Operator.indexInsert) := by
  refine ⟨[Operator.tableScan "t" [],
    Operator.pathsSet [PathFragment.field "k"] (Expr.litInt 5),
    Operator.tableValidate "t", Operator.indexDelete "i1",
    Operator.tableDelete "t", Operator.tableInsert "t",
    Operator.indexInsert "i1"], by decide, ?_⟩
  exact (C7_update_pipeline_pk_modified
    { tableName := "t", setPairs := some [([PathFragment.field "k"], Expr.litInt 5)] }
    [([PathFragment.field "k"], Expr.litInt 5)] [[PathFragment.field "k"]] ["i1"]
    _ rfl (by decide)).2.mpr (by decide)

theorem encodeValue_ok_ne_nil (v : Value) (bs : List Nat)
    (h : encodeValue v = .ok bs) : bs ≠ [] := by
  intro hnil
  subst hnil
  cases v with
  | null => simp [encodeValue] at h
  | bool b => cases b <;> simp [encodeValue] at h
  | int n => simp [encodeValue] at h
  | double bits => simp [encodeValue] at h
  | text s => simp [encodeValue] at h
  | blob s => simp [encodeValue] at h
  | array vs =>
    simp only [encodeValue, bind, Except.bind] at h
    cases henc : encodeList vs with
    | error e => rw [henc] at h; simp at h
    | ok inner => rw [henc] at h; simp at h
  | doc fs =>
    simp only [encodeValue, bind, Except.bind] at h
    cases henc : encodeFields fs with
    | error e => rw [henc] at h; simp at h
    | ok inner => rw [henc] at h; simp at h
  | nilOf t => simp [encodeValue] at h

theorem encodeValue_ok_guard (v : Value) (bs : List Nat)
    (h : encodeValue v = .ok bs) :
    ¬(v.typeOf ≠ ValueType.null ∧ v.isNilV = true) := by
  cases v with
  | null => simp [Value.typeOf]
  | nilOf t => simp [encodeValue] at h
  | bool b => simp [Value.isNilV]
  | int n => simp [Value.isNilV]
  | double bits => simp [Value.isNilV]
  | text s => simp [Value.isNilV]
  | blob s => simp [Value.isNilV]
  | array vs => simp [Value.isNilV]
  | doc fs => simp [Value.isNilV]

/-- Claim C5: for encodable values `a` and `b` (values the codec accepts),
the composite key of `(a)` built by `tree.NewKey` is a strict byte-prefix
of the composite key of `(a, b)`: stripping the array delimiters leaves the
concatenation of the element encodings. -/
theorem C5_composite_key_strict_prefix (a b : Value) (ea eb : List Nat)
    (ha : encodeValue a = .ok ea) (hb : encodeValue b = .ok eb) :
    NewKey [a] = .key ea ∧ NewKey [a, b] = .key (ea ++ eb) ∧
      ea <+: (ea ++ eb) ∧ ea ≠ ea ++ eb := by
  have hguard := encodeValue_ok_guard a ea ha
  refine ⟨?_, ?_, ⟨eb, rfl⟩, ?_⟩
  · simp only [NewKey]
    rw [if_neg hguard]
    simp only [encodeValue, encodeList, ha, bind, Except.bind]
    simp [List.dropLast_concat]
  · simp only [NewKey]
    rw [if_neg hguard]
    simp only [encodeValue, encodeList, ha, hb, bind, Except.bind]
    simp [List.dropLast_concat]
  · intro hx
    have heb : eb = [] := by simpa using hx
    exact encodeValue_ok_ne_nil b eb hb heb

/-- Witness for C5: the key of `(1)` is a strict prefix of the key of
`(1, true)`. -/
theorem C5_witness :
    NewKey [Value.int 1] = .key [4, 128, 0, 0, 0, 0, 0, 0, 1] ∧
    NewKey [Value.int 1, Value.bool true] =
      .key ([4, 128, 0, 0, 0, 0, 0, 0, 1] ++ [3]) ∧
    [4, 128, 0, 0, 0, 0, 0, 0, 1] <+: ([4, 128, 0, 0, 0, 0, 0, 0, 1] ++ [3]) ∧
    [4, 128, 0, 0, 0, 0, 0, 0, 1] ≠ [4, 128, 0, 0, 0, 0, 0, 0, 1] ++ [3] :=
  C5_composite_key_strict_prefix (.int 1) (.bool true) _ _ (by decide) (by decide)

/-- Claim C6 (amended): `tree.NewKey` returns the "cannot encode nil value"
error exactly when the FIRST value of a non-empty list is nil and not of
the Null type; a nil at any later position is not caught by the guard (the
encoder then panics instead of returning the error). -/
theorem C6_newKey_nil_guard_first_only (values : List Value) :
    NewKey values = KeyResult.invalidValue ↔
      (∃ v vs, values = v :: vs ∧ v.typeOf ≠ ValueType.null ∧ v.isNilV = true) := by
  cases values with
  | nil => simp [NewKey]
  | cons v vs =>
    by_cases hg : v.typeOf ≠ ValueType.null ∧ v.isNilV = true
    · simp only [NewKey, if_pos hg]
      exact iff_of_true (by trivial) ⟨v, vs, rfl, hg.1, hg.2⟩
    · simp only [NewKey, if_neg hg]
      constructor
      · intro h
        cases henc : encodeValue (.array (v :: vs)) with
        | error e => rw [henc] at h; exact absurd h (by simp)
        | ok bs => rw [henc] at h; exact absurd h (by simp)
      · rintro ⟨v', vs', heq, h1, h2⟩
        cases heq
        exact absurd ⟨h1, h2⟩ hg

/-- Counterexample to C6 as stated: the list `(1, nil-of-integer)` has a
nil top-level value that is not Null, yet `NewKey` does not return the
invalid-value error — only `values[0]` is guarded, and the encoder panics
on the later nil. -/
theorem C6_counterexample :
    NewKey [Value.int 1, Value.nilOf ValueType.integer] = KeyResult.panic ∧
    NewKey [Value.int 1, Value.nilOf ValueType.integer] ≠ KeyResult.invalidValue :=
  ⟨by decide, by decide⟩

theorem iterateOnRange_no_err (rows : List Nat) (fn : Nat → StreamRes)
    (h : ∀ r, fn r = .ok ∨ fn r = .closed) :
    (iterateOnRange rows fn).1 = .ok ∨ (iterateOnRange rows fn).1 = .closed := by
  induction rows with
  | nil => exact Or.inl rfl
  | cons r rest ih =>
    simp only [iterateOnRange]
    rcases h r with hr | hr <;> rw [hr]
    · exact ih
    · exact Or.inr rfl

theorem iterateOnRange_stop (fn : Nat → StreamRes) :
    ∀ (pre : List Nat), (∀ x ∈ pre, fn x = .ok) →
      ∀ (r : Nat), fn r = .closed → ∀ (suf : List Nat),
        iterateOnRange (pre ++ r :: suf) fn = (.closed, pre ++ [r]) := by
  intro pre
  induction pre with
  | nil =>
    intro _ r hr suf
    simp only [List.nil_append, iterateOnRange, hr]
  | cons x rest ih =>
    intro hpre r hr suf
    have hx : fn x = .ok := hpre x (by simp)
    simp only [List.cons_append, iterateOnRange, hx, List.append_eq,
      ih (fun y hy => hpre y (by simp [hy])) r hr suf]

/-- Claim C8 (amended): an `ErrStreamClosed` result from the yield callback
terminates the iteration of the CURRENT range only — the remaining rows of
that range are not produced and `Iterate` reports nil instead of the error
(so a scan with at most one range, including the ranges-free whole-table
scan, stops producing rows entirely) — but the loop then continues with the
next range, so a multi-range scan keeps producing rows. -/
theorem C8_closed_stops_range_returns_nil :
    (∀ (rangeRows : List (List Nat)) (fn : Nat → StreamRes),
      (∀ r, fn r = .ok ∨ fn r = .closed) →
      (tableScanIterate rangeRows fn).1 = .ok) ∧
    (∀ (pre : List Nat) (r : Nat) (suf : List Nat) (fn : Nat → StreamRes),
      (∀ x ∈ pre, fn x = .ok) → fn r = .closed →
      tableScanIterate [pre ++ r :: suf] fn = (.ok, pre ++ [r])) := by
  constructor
  · intro rangeRows fn h
    induction rangeRows with
    | nil => rfl
    | cons rows rest ih =>
      simp only [tableScanIterate]
      cases ht : (iterateOnRange rows fn).1 with
      | err e =>
        rcases iterateOnRange_no_err rows fn h with h1 | h1 <;>
          rw [ht] at h1 <;> exact absurd h1 (by simp)
      | ok => exact ih
      | closed => exact ih
  · intro pre r suf fn hpre hr
    simp only [tableScanIterate, iterateOnRange_stop fn pre hpre r hr suf]
    simp

/-- Counterexample to C8 as stated: over the two ranges `[0]` and `[1]`,
the callback answers `ErrStreamClosed` already on row 0, yet the operator
still produces row 1 of the second range (the claim says no further rows
are produced); `Iterate` does return nil. -/
theorem C8_counterexample :
    tableScanIterate [[0], [1]] (fun _ => StreamRes.closed) =
      (StreamRes.ok, [0, 1]) := by
  decide

/-- Mutation list for the C4 witness: add a table, replace it, delete it. -/
def opsC4 : List CacheOp :=
  [CacheOp.add (.table { tableName := "t", storeNamespace := 10 }),
   CacheOp.replace (.table { tableName := "t", storeNamespace := 12 }),
   CacheOp.delete .table "t"]

/-- Start cache for the C4 witness. -/
def cC4 : Cache := { sequences := [("s", .seq { name := "s" })] }

/-- Witness for C4: rolling back the three-mutation transaction restores
the lookup of `t`. -/
theorem C4_rollback_witness :
    (rollbackHooks (runOps cC4 opsC4).1 (runOps cC4 opsC4).2).get .table "t" =
      cC4.get .table "t" :=
  (C4_cache_rollback_restores opsC4 cC4).1 RelType.table "t"

/-- Witness for C6 (amended): a nil non-Null FIRST value is rejected with
the invalid-value error. -/
theorem C6_guard_witness :
    NewKey [Value.nilOf ValueType.integer] = KeyResult.invalidValue :=
  (C6_newKey_nil_guard_first_only [Value.nilOf ValueType.integer]).mpr
    ⟨Value.nilOf ValueType.integer, [], rfl, by decide, rfl⟩

/-- Witness for C8: within one range, the scan stops at the row whose
callback signals `ErrStreamClosed` and returns nil. -/
theorem C8_witness :
    (tableScanIterate [[5, 6]] (fun _ => StreamRes.closed)).1 = .ok ∧
    tableScanIterate [[7] ++ 8 :: [9]]
      (fun x => if x = 8 then StreamRes.closed else .ok) = (.ok, [7] ++ [8]) :=
  ⟨C8_closed_stops_range_returns_nil.1 [[5, 6]] (fun _ => StreamRes.closed)
      (fun _ => Or.inr rfl),
    C8_closed_stops_range_returns_nil.2 [7] 8 [9]
      (fun x => if x = 8 then StreamRes.closed else .ok) (by decide) (by decide)⟩

end GenjiV
